import Mathlib

/-!
Verification development for the trafilatura content-extraction core
(`src/trafilatura/core.py`). The Python functions of the core are shallowly
embedded as executable Lean definitions; external collaborators that live
outside `src/` (utils, filters, htmlprocessing, settings, the XPath tables)
are modelled from the specification and are marked as such in their doc
comments. Machine integers do not occur: all lengths and counts are `Nat`.
-/

/-! ## Whitespace predicates (core.py lines 177-196) -/

/-- Embeds `should_have_space_prior` (core.py lines 177-185): true unless the
string is non-empty and its first character is a space or matches the
character class of `.` `?` `!` `,` `:` `;` `)`. -/
def should_have_space_prior (x : String) : Bool :=
  match x.data with
  | [] => true
  | c :: _ =>
    if c = ' ' then false
    else if c = '.' ∨ c = '?' ∨ c = '!' ∨ c = ',' ∨ c = ':' ∨ c = ';' ∨ c = ')' then false
    else true

/-- Embeds `should_have_space_next` (core.py lines 188-196): true unless the
string is non-empty and its last character is a space or matches the
character class of `[` `(`. -/
def should_have_space_next (x : String) : Bool :=
  match x.data.getLast? with
  | none => true
  | some c =>
    if c = ' ' then false
    else if c = '[' ∨ c = '(' then false
    else true

/-! ## The arbiter decision (core.py `compare_extraction`, lines 707-760) -/

/-- Which extraction result the arbiter adopts. -/
inductive ExtractionChoice : Type where
  | custom
  | readability
deriving DecidableEq, Repr

/-- Inputs of the arbiter's decision. `len_text` is the custom extraction's
text length (`L1`), `len_algo` the length of the readability result computed
on the backup tree (`L2`), `has_pq_text` records whether
`body.xpath('//p|quote//text()')` is non-empty on the custom body, and
`num_tables` / `num_ps` the counts of `//table` and `//p` nodes there. -/
structure CompareInput : Type where
  favor_recall : Bool
  min_extracted_size : Nat
  len_text : Nat
  len_algo : Nat
  has_pq_text : Bool
  num_tables : Nat
  num_ps : Nat

/-- Embeds the `algo_flag` computation of `compare_extraction`
(core.py lines 713-738): the sequential if/elif chain deciding whether the
readability result replaces the custom one. -/
def compare_algo_flag (i : CompareInput) : Bool :=
  if i.len_algo = 0 ∨ i.len_algo = i.len_text then false
  else if i.len_text = 0 ∧ i.len_algo > 0 then true
  else if i.len_text > 2 * i.len_algo then false
  else if i.len_algo > 2 * i.len_text then true
  else if i.has_pq_text = false ∧ i.len_algo > i.min_extracted_size * 2 then true
  else if i.num_tables > i.num_ps ∧ i.len_algo > i.min_extracted_size * 2 then true
  else false

/-- Embeds the choice made by `compare_extraction` (core.py lines 710-745):
the `favor_recall` bypass at lines 711-712 returns the custom result before
readability is run; otherwise `algo_flag` decides. -/
def compare_extraction_choice (i : CompareInput) : ExtractionChoice :=
  if i.favor_recall = true ∧ i.len_text > i.min_extracted_size * 10 then .custom
  else if compare_algo_flag i then .readability
  else .custom

/-- Follows the words of the spec table (§4.7) and of claim C1, evaluated in
order: recall bypass, `L2 ∈ {0, L1}`, `L1 = 0 ∧ L2 > 0`, `L1 > 2·L2`,
`L2 > 2·L1`, then the borderline rule: readability exactly when
`L2 > 2·MIN_EXTRACTED_SIZE` and (no p/quote text or more tables than ps). -/
def compare_extraction_choice_spec (i : CompareInput) : ExtractionChoice :=
  if i.favor_recall = true ∧ i.len_text > 10 * i.min_extracted_size then .custom
  else if i.len_algo = 0 ∨ i.len_algo = i.len_text then .custom
  else if i.len_text = 0 ∧ i.len_algo > 0 then .readability
  else if i.len_text > 2 * i.len_algo then .custom
  else if i.len_algo > 2 * i.len_text then .readability
  else if i.len_algo > 2 * i.min_extracted_size ∧ (i.has_pq_text = false ∨ i.num_tables > i.num_ps)
    then .readability
  else .custom

/-! ## Fallback dispatch in `bare_extraction` (core.py lines 967-975) -/

/-- State of `bare_extraction` after content extraction: the `no_fallback`
option, the `sure_thing` flag and text length returned by `extract_content`,
the configured `MIN_EXTRACTED_SIZE`, and the child count of the current
`postbody` (for the `no_fallback = false` branch this is the count after
`compare_extraction` has run). -/
structure FallbackState : Type where
  no_fallback : Bool
  sure_thing : Bool
  len_text : Nat
  min_extracted_size : Nat
  postbody_child_count : Nat

/-- Embeds the dispatch at core.py lines 967-975. The first component records
whether `compare_extraction` is invoked, the second whether `baseline` is
invoked: with fallbacks enabled, `baseline` runs when the post-arbiter body
has no children; with `no_fallback` set, `baseline` runs when `sure_thing`
is false and the text is shorter than `MIN_EXTRACTED_SIZE`. -/
def fallback_dispatch (s : FallbackState) : Bool × Bool :=
  if s.no_fallback = false then (true, decide (s.postbody_child_count = 0))
  else if s.sure_thing = false ∧ s.len_text < s.min_extracted_size then (false, true)
  else (false, false)

/-! ## Full length outcome of `compare_extraction` (core.py lines 707-760) -/

/-- Identity of the body held by `compare_extraction` at its return. -/
inductive ChosenBody : Type where
  | custom
  | algo
  | justext
deriving DecidableEq, Repr

/-- Environment of one `compare_extraction` run. The readability length,
justext outcomes and sanitizer lengths are the behaviors of the external
collaborators `try_readability`, `justext_rescue` and `sanitize_tree`
(trafilatura.external, not under `src/`), modelled from the spec (§6) as
unconstrained black boxes. `jt1_*` is the `justext_rescue` outcome for the
sanitized-signature branch (line 748), `jt2_*` for the short-text/recall
branch (line 755); `san_match_*` records whether `SANITIZED_XPATH` matches
the respective body (line 747). -/
structure CompareEnv : Type where
  min_extracted_size : Nat
  len_text : Nat
  len_algo : Nat
  has_pq_text : Bool
  num_tables : Nat
  num_ps : Nat
  san_match_custom : Bool
  san_match_algo : Bool
  jt1_ok : Bool
  jt1_len : Nat
  jt2_ok : Bool
  jt2_len : Nat
  sanitize_len_custom : Nat
  sanitize_len_algo : Nat
  sanitize_len_justext : Nat

/-- Length of the sanitized version of a chosen body, per the environment. -/
def CompareEnv.sanitizeLen (e : CompareEnv) : ChosenBody → Nat
  | .custom => e.sanitize_len_custom
  | .algo => e.sanitize_len_algo
  | .justext => e.sanitize_len_justext

/-- Embeds the text length returned by `compare_extraction`
(core.py lines 707-760): the recall bypass (lines 711-712), the `algo_flag`
decision (lines 713-745), the two justext rescue branches (lines 747-756,
the first adopting justext only when successful and not shrinking the text
by more than half, the second adopting its outcome unconditionally), and the
final sanitizer pass when the readability result was kept without a justext
result (lines 758-759). -/
def compare_extraction_len (favor_recall : Bool) (e : CompareEnv) : Nat :=
  if favor_recall = true ∧ e.len_text > e.min_extracted_size * 10 then e.len_text
  else
    let i : CompareInput :=
      ⟨favor_recall, e.min_extracted_size, e.len_text, e.len_algo,
        e.has_pq_text, e.num_tables, e.num_ps⟩
    let algo_flag := compare_algo_flag i
    let body0 : ChosenBody := if algo_flag then .algo else .custom
    let len0 := if algo_flag then e.len_algo else e.len_text
    let san0 := if algo_flag then e.san_match_algo else e.san_match_custom
    let step :=
      if san0 = true ∧ len0 < e.min_extracted_size * 10 then
        if e.jt1_ok = true ∧ ¬(len0 > 2 * e.jt1_len)
        then (ChosenBody.justext, e.jt1_len, e.jt1_ok)
        else (body0, len0, e.jt1_ok)
      else if len0 < e.min_extracted_size ∨ favor_recall = true then
        (ChosenBody.justext, e.jt2_len, e.jt2_ok)
      else (body0, len0, false)
    if algo_flag = true ∧ step.2.2 = false then e.sanitizeLen step.1
    else step.2.1

/-! ## Error handling in `bare_extraction` and `extract`
(core.py lines 855-1016 and 1019-1087) -/

/-- Error conditions raised as `ValueError` inside the `try` block of
`bare_extraction` (core.py lines 911-1002), in source order. -/
inductive ExtractionError : Type where
  | empty_tree
  | wrong_html_lang
  | blacklisted_url
  | missing_metadata
  | tree_too_big
  | too_small
  | duplicate
  | wrong_language
deriving DecidableEq, Repr

/-- Outcomes of the collaborators and checks consulted by `bare_extraction`,
abstracted per the spec (§6): `tree_loads` is `load_html` succeeding,
`html_lang_ok` the `check_html_lang` verdict, `url_blacklisted` whether the
extracted metadata URL is blacklisted, `metadata_missing` whether date,
title or url is absent, the lengths are the extraction results, the child
counts gate `max_tree_size` (before and after stripping `hi` tags),
`is_duplicate` the `duplicate_test` verdict, `language_filter_fails` the
`language_filter` verdict, and `serialized` the `determine_returnstring`
output for the document. -/
structure BareExtractionEnv : Type where
  tree_loads : Bool
  target_language_set : Bool
  html_lang_ok : Bool
  output_format_txt : Bool
  url_blacklisted : Bool
  only_with_metadata : Bool
  metadata_missing : Bool
  len_comments : Nat
  len_text : Nat
  max_tree_size : Option Nat
  postbody_child_count : Nat
  child_count_after_strip : Nat
  deduplicate : Bool
  is_duplicate : Bool
  language_filter_fails : Bool
  min_output_size : Nat
  min_output_comm_size : Nat
  serialized : String

/-- Embeds the body of the `try` block of `bare_extraction`
(core.py lines 911-1002): each `raise ValueError` becomes an error value, in
source order. The URL blacklist and required-metadata checks only run when
the output format is not `txt` (line 929); the tree-size check rejects only
if the body is still too large after stripping `hi` tags (lines 978-986). -/
def bare_extraction_inner (e : BareExtractionEnv) : Except ExtractionError Unit :=
  if e.tree_loads = false then .error .empty_tree
  else if e.target_language_set = true ∧ e.html_lang_ok = false then .error .wrong_html_lang
  else if e.output_format_txt = false ∧ e.url_blacklisted = true then .error .blacklisted_url
  else if e.output_format_txt = false ∧ e.only_with_metadata = true ∧ e.metadata_missing = true
    then .error .missing_metadata
  else if (match e.max_tree_size with
    | some m => decide (e.postbody_child_count > m) && decide (e.child_count_after_strip > m)
    | none => false) = true then .error .tree_too_big
  else if e.len_text < e.min_output_size ∧ e.len_comments < e.min_output_comm_size
    then .error .too_small
  else if e.deduplicate = true ∧ e.is_duplicate = true then .error .duplicate
  else if e.target_language_set = true ∧ e.language_filter_fails = true
    then .error .wrong_language
  else .ok ()

/-- Embeds `bare_extraction`'s `except ValueError: return None`
(core.py lines 1004-1006): every error of the inner computation is caught
and mapped to an absent result. -/
def bare_extraction_model (e : BareExtractionEnv) : Option Unit :=
  match bare_extraction_inner e with
  | .error _ => none
  | .ok u => some u

/-- Embeds `extract` (core.py lines 1019-1087): `bare_extraction` then
serialization via `determine_returnstring`; `None` propagates. -/
def extract_model (e : BareExtractionEnv) : Option String :=
  match bare_extraction_model e with
  | none => none
  | some _ => some e.serialized

/-! ## Link-density deletion collection (core.py `delete_by_link_density`,
lines 548-572) -/

/-- One element of the target tag visited by `delete_by_link_density`:
`idx` identifies the element, `flagged` is the first component returned by
`link_density_test`, `aux_count` the length of the auxiliary list
(`templist`) it returns, and `text` the element's trimmed text content. -/
structure LinkDensityItem : Type where
  idx : Nat
  flagged : Bool
  aux_count : Nat
  text : String
deriving DecidableEq, Repr

/-- Adds an item to the insertion-ordered groups (`myelems` dict of
core.py lines 551-561): appended to the group of its text if one exists,
otherwise a new group is opened at the end. -/
def add_to_groups (gs : List (String × List LinkDensityItem)) (it : LinkDensityItem) :
    List (String × List LinkDensityItem) :=
  match gs with
  | [] => [(it.text, [it])]
  | (t, l) :: rest =>
    if t = it.text then (t, l ++ [it]) :: rest
    else (t, l) :: add_to_groups rest it

/-- One iteration of the collection loop of `delete_by_link_density`
(core.py lines 552-561): flagged elements are appended to the deletions,
non-flagged ones with a non-empty auxiliary list are grouped. -/
def collect_step (backtracking : Bool)
    (acc : List LinkDensityItem × List (String × List LinkDensityItem))
    (it : LinkDensityItem) :
    List LinkDensityItem × List (String × List LinkDensityItem) :=
  if it.flagged = true then (acc.1 ++ [it], acc.2)
  else if backtracking = true ∧ it.aux_count > 0 then (acc.1, add_to_groups acc.2 it)
  else acc

/-- Modelled from the spec: `utils.uniquify_list` (not under `src/`),
de-duplication preserving the first occurrence of each element
("Deletions are de-duplicated before application", §4.5). -/
def uniquify_go (seen : List LinkDensityItem) : List LinkDensityItem → List LinkDensityItem
  | [] => []
  | x :: xs =>
    if x ∈ seen then uniquify_go seen xs
    else x :: uniquify_go (x :: seen) xs

/-- De-duplication entry point used at core.py line 570. -/
def uniquify_list (l : List LinkDensityItem) : List LinkDensityItem :=
  uniquify_go [] l

/-- Embeds the deletion collection of `delete_by_link_density`
(core.py lines 548-570): the loop over the elements of the target tag, the
backtracking pass adding every group with at least 3 occurrences and text
length strictly between 0 and 100, and the final de-duplication. The
returned list holds the elements removed from the tree, in removal order. -/
def delete_by_link_density_deletions (backtracking : Bool) (items : List LinkDensityItem) :
    List LinkDensityItem :=
  let acc := items.foldl (collect_step backtracking) ([], [])
  let ds :=
    if backtracking = true then
      acc.1 ++ (acc.2.filter
        (fun g => decide (0 < g.1.length) && decide (g.1.length < 100) && decide (3 ≤ g.2.length))).flatMap
        (fun g => g.2)
    else acc.1
  uniquify_list ds

/-- Eligibility for grouping in the backtracking pass: the link-density test
was negative but returned auxiliary strings. -/
def backtrack_eligible (it : LinkDensityItem) : Bool :=
  it.flagged = false ∧ it.aux_count > 0

/-- The group stored under a text key, `myelems[text]` of core.py:
the empty list when the key is absent. -/
def groupGet (gs : List (String × List LinkDensityItem)) (tx : String) :
    List LinkDensityItem :=
  ((gs.find? (fun g => g.1 == tx)).map (fun g => g.2)).getD []

/-! ## The element tree

Elements as manipulated by the core (spec §3): a tag, an attribute map in
insertion order, an optional text (content before the first child), an
optional tail (content between the element and its next sibling), and an
ordered child sequence. A mutual inductive keeps all recursion structural. -/

mutual
inductive Elem : Type where
  | mk (tag : String) (attrs : List (String × String)) (text : Option String)
      (tail : Option String) (children : ElemList) : Elem
inductive ElemList : Type where
  | nil : ElemList
  | cons (e : Elem) (es : ElemList) : ElemList
end

def Elem.tag : Elem → String
  | .mk t _ _ _ _ => t

def Elem.attrs : Elem → List (String × String)
  | .mk _ a _ _ _ => a

def Elem.text : Elem → Option String
  | .mk _ _ tx _ _ => tx

def Elem.tail : Elem → Option String
  | .mk _ _ _ tl _ => tl

def Elem.children : Elem → ElemList
  | .mk _ _ _ _ cs => cs

def ElemList.toList : ElemList → List Elem
  | .nil => []
  | .cons e es => e :: ElemList.toList es

def ElemList.ofList : List Elem → ElemList
  | [] => .nil
  | e :: es => .cons e (ElemList.ofList es)

/-- Attribute lookup, `element.get(key)` of lxml. -/
def Elem.get (e : Elem) (k : String) : Option String :=
  (e.attrs.find? (fun kv => kv.1 = k)).map (fun kv => kv.2)

mutual
/-- Document-order traversal of an element and its descendants,
lxml's `element.iter('*')`. -/
def preorder : Elem → List Elem
  | .mk t a tx tl cs => .mk t a tx tl cs :: preorderList cs
def preorderList : ElemList → List Elem
  | .nil => []
  | .cons c cs => preorder c ++ preorderList cs
end

/-- Proper descendants in document order, lxml's `element.iterfind('.//…')`
search space. -/
def Elem.descendants (e : Elem) : List Elem :=
  preorderList e.children

mutual
/-- Text nodes inside an element in document order, lxml's
`element.itertext()`: the element's text, then recursively each child's
texts followed by its tail; empty strings are skipped like lxml skips
falsy text values. The element's own tail is not included. -/
def itertextStrs : Elem → List String
  | .mk _ _ tx _ cs =>
    (match tx with | some s => if s = "" then [] else [s] | none => []) ++ itertextStrsList cs
def itertextStrsList : ElemList → List String
  | .nil => []
  | .cons c cs =>
    (itertextStrs c ++ (match c.tail with | some s => if s = "" then [] else [s] | none => []))
      ++ itertextStrsList cs
end

/-- lxml's `element.text_content()`: concatenation of all text nodes. -/
def textContent (e : Elem) : String :=
  String.join (itertextStrs e)

mutual
/-- Tags of the proper descendants of an element, in document order. -/
def descTags : Elem → List String
  | .mk _ _ _ _ cs => descTagsList cs
def descTagsList : ElemList → List String
  | .nil => []
  | .cons c cs => (c.tag :: descTags c) ++ descTagsList cs
end

/-- Tags of an element and all its descendants. -/
def allTags (e : Elem) : List String :=
  e.tag :: descTags e

/-- Tags of every element of a list and of their descendants. -/
def tagsOfL (l : List Elem) : List String :=
  l.flatMap allTags

/-! ## Spec-modelled external text helpers -/

/-- Tests whether `p` is an initial segment of `s`, Python's
`s.startswith(p)`, stated on the character lists. -/
def strStartsWith (s p : String) : Bool :=
  decide (s.data.take p.data.length = p.data)

/-- Tests whether `p` is a final segment of `s`, Python's `s.endswith(p)`,
stated on the character lists. -/
def strEndsWith (s p : String) : Bool :=
  decide (s.data.reverse.take p.data.length = p.data.reverse)

/-- Modelled from the spec: `utils.trim` (not under `src/`), whitespace
normalization — text is "trimmed of leading/trailing whitespace" (§3) with
inner whitespace runs collapsed to single joining spaces. -/
def trim (s : String) : String :=
  String.intercalate " "
    (((s.data.splitOnP (fun c => c.isWhitespace)).filter (fun w => w ≠ [])).map String.mk)

/-- Optional-text version of `trim`; an absent value stays absent. -/
def trimOpt : Option String → Option String
  | none => none
  | some s => some (trim s)

/-- Modelled from the spec: `filters.text_chars_test` (not under `src/`),
the usable-text test — the value is present and contains a character that is
not whitespace. -/
def textCharsTest : Option String → Bool
  | none => false
  | some s => !(s.data.all (fun c => c.isWhitespace))

/-- Modelled from the spec: `htmlprocessing.process_node` (not under
`src/`), the text-node cleaner of §6 — returns the element with trimmed
text and tail, or absent when neither carries usable text. -/
def process_node (e : Elem) : Option Elem :=
  let tx := trimOpt e.text
  let tl := trimOpt e.tail
  if textCharsTest tx || textCharsTest tl then
    some (.mk e.tag e.attrs tx tl e.children)
  else none

/-! ## Image handling (core.py `handle_image`, lines 468-495) -/

/-- Application of the image-file test to an optional attribute value;
`utils.is_image_file` (not under `src/`) is false on an absent value, its
test on present values ("points to an image file (by extension)", §4.3) is
abstracted as the parameter `f`. -/
def isImageFileOpt (f : String → Bool) : Option String → Bool
  | none => false
  | some s => f s

/-- Embeds the protocol-relative URL rewrite of core.py line 494,
`re.sub(r'^//', 'http://', url)`. -/
def rewriteProtocolRelative (u : String) : String :=
  if u.data.take 2 = ['/', '/'] then "http://" ++ String.mk (u.data.drop 2) else u

/-- Embeds the source selection of `handle_image` (core.py lines 472-481):
`data-src`, then `src`, then the first attribute whose name starts with
`data-src`, each subject to the image-file test. -/
def select_image_src (f : String → Bool) (element : Elem) : Option String :=
  if isImageFileOpt f (element.get "data-src") then element.get "data-src"
  else if isImageFileOpt f (element.get "src") then element.get "src"
  else (element.attrs.find? (fun kv => strStartsWith kv.1 "data-src" && f kv.2)).map
    (fun kv => kv.2)

/-- Embeds the additional data copied by `handle_image`
(core.py lines 483-488): `alt`, `class` and `title` when present. -/
def image_extra_attrs (element : Elem) : List (String × String) :=
  (match element.get "alt" with | some v => [("alt", v)] | none => []) ++
  (match element.get "class" with | some v => [("class", v)] | none => []) ++
  (match element.get "title" with | some v => [("title", v)] | none => [])

/-- Embeds `handle_image` (core.py lines 468-495): the selected source and
the copied attributes; the element is rejected when no (non-empty) source
was selected; a selected source starting with `//` is rewritten to
`http://`. The result element keeps the input's tag and has no text and no
children, like the fresh `etree.Element(element.tag)` of line 471. -/
def handle_image (f : String → Bool) (element : Elem) : Option Elem :=
  match select_image_src f element with
  | none => none
  | some u =>
    if u = "" then none
    else some (.mk element.tag
      (("src", rewriteProtocolRelative u) :: image_extra_attrs element) none none .nil)

/-! ## Baseline extraction (core.py `baseline`, lines 763-809) -/

/-- Python value in the `baseline` return triple: a string or an integer.
The docstring of `baseline` promises (body, text string, integer length);
the parse-failure path returns (body, 0, '') instead. -/
inductive BaselineVal : Type where
  | str (s : String)
  | int (n : Nat)
deriving DecidableEq, Repr

/-- Lowercased form of the literal part of the JSON-LD regex of core.py
line 781, `"articlebody":"`; the search is case-insensitive (`re.I`). -/
def articleBodyNeedle : List Char :=
  "\"articlebody\":\"".data

/-- Embeds the lazy group `(.+?)` of the regex `"articlebody":"(.+?)","`
followed by the literal `","`: consumes at least one character, stopping at
the first position where `","` follows; `.` does not match a newline. -/
def lazyCaptureUntil : List Char → List Char → Option (List Char)
  | _, [] => none
  | acc, c :: rest =>
    if c = '\n' then none
    else if rest.take 3 = ['"', ',', '"'] then some (acc ++ [c])
    else lazyCaptureUntil (acc ++ [c]) rest

/-- Embeds `re.search(r'"articlebody":"(.+?)","', text, re.I)` of core.py
line 781: the leftmost position where the case-insensitive literal matches
and the lazy group can be completed wins; returns the group. -/
def searchArticleBody : List Char → Option (List Char)
  | [] => none
  | c :: rest =>
    if ((c :: rest).take articleBodyNeedle.length).map Char.toLower = articleBodyNeedle then
      match lazyCaptureUntil [] ((c :: rest).drop articleBodyNeedle.length) with
      | some cap => some cap
      | none => searchArticleBody rest
    else searchArticleBody rest

/-- Substring containment, Python's `needle in text` (core.py line 780). -/
def containsSubstr (needle : List Char) : List Char → Bool
  | [] => decide (needle = [])
  | c :: rest =>
    decide ((c :: rest).take needle.length = needle) || containsSubstr needle rest

/-- Embeds `.replace('\\"', '"')` of core.py line 785: left-to-right
non-overlapping replacement of the two-character escape by a quote. -/
def unescapeQuotes : List Char → List Char
  | [] => []
  | '\\' :: '"' :: rest => '"' :: unescapeQuotes rest
  | c :: rest => c :: unescapeQuotes rest

/-- Embeds the JSON-LD loop of `baseline` (core.py lines 779-787) over the
document-order stream of elements: for each
`script[@type="application/ld+json"]` whose text contains `"article`, the
regex is tried; the first match is trimmed and returned. -/
def jsonScan : List Elem → Option String
  | [] => none
  | e :: rest =>
    if e.tag = "script" ∧ e.get "type" = some "application/ld+json" then
      match e.text with
      | some t =>
        if containsSubstr "\"article".data t.data then
          match searchArticleBody t.data with
          | some cap => some (trim (String.mk (unescapeQuotes cap)))
          | none => jsonScan rest
        else jsonScan rest
      | none => jsonScan rest
    else jsonScan rest

/-- Unique `text_content()` entries in document order, the `results` set of
core.py lines 799-807. -/
def uniqueEntries (seen : List String) : List Elem → List String
  | [] => []
  | e :: rest =>
    let entry := textContent e
    if entry ∈ seen then uniqueEntries seen rest
    else entry :: uniqueEntries (entry :: seen) rest

/-- Embeds the final scrape of `baseline` (core.py lines 798-809): a `p` per
unique text content of every `blockquote`, `code`, `p`, `pre`, `q`, `quote`
element, then the newline join of the body's texts, trimmed. -/
def paragraphScan (tree : Elem) : Elem × BaselineVal × BaselineVal :=
  let entries := uniqueEntries []
    ((preorder tree).filter
      (fun e => ["blockquote", "code", "p", "pre", "q", "quote"].contains e.tag))
  let postbody : Elem :=
    .mk "body" [] none none (ElemList.ofList (entries.map (fun s => .mk "p" [] (some s) none .nil)))
  let temp_text := trim ("\n".intercalate (itertextStrs postbody))
  (postbody, .str temp_text, .int temp_text.length)

/-- Embeds `baseline` (core.py lines 763-809). The argument is the result of
the external HTML loader (`utils.load_html`, not under `src/`, "bytes/string
→ element tree or absent", §6): parse failure returns the triple
`(empty body, 0, '')` of line 777; otherwise JSON-LD `articleBody` search,
then the first `article` element's trimmed text content, then the scrape of
text paragraphs. -/
def baseline (loaded : Option Elem) : Elem × BaselineVal × BaselineVal :=
  match loaded with
  | none => (.mk "body" [] none none .nil, .int 0, .str "")
  | some tree =>
    match jsonScan tree.descendants with
    | some bodyText =>
      (.mk "body" [] none none (.cons (.mk "p" [] (some bodyText) none .nil) .nil),
        .str bodyText, .int bodyText.length)
    | none =>
      match tree.descendants.find? (fun e => e.tag = "article") with
      | some art =>
        let temp_text := trim (textContent art)
        if temp_text.length > 0 then
          (.mk "body" [] none none (.cons (.mk "p" [] (some temp_text) none .nil) .nil),
            .str temp_text, .int temp_text.length)
        else paragraphScan tree
      | none => paragraphScan tree

/-! ## The final output filter of `extract_content`
(core.py lines 653-654) and its helpers -/

mutual
/-- Embeds `etree.strip_elements(body, 'done')` (core.py line 653) for an
arbitrary target tag: every matching descendant is removed together with
its whole subtree and its tail. The root is not examined, as in lxml. -/
def stripElements (t : String) : Elem → Elem
  | .mk tg a tx tl cs => .mk tg a tx tl (stripElementsList t cs)
def stripElementsList (t : String) : ElemList → ElemList
  | .nil => .nil
  | .cons c cs =>
    if c.tag = t then stripElementsList t cs
    else .cons (stripElements t c) (stripElementsList t cs)
end

/-- Appends a string to an element's tail, lxml's
`e.tail = (e.tail or '') + s`. -/
def Elem.withTailAppended : Elem → String → Elem
  | .mk tg a tx tl cs, s => .mk tg a tx (some ((tl.getD "") ++ s)) cs

/-- Appends a string to the tail of the last element of a list. -/
def appendTailLast : List Elem → String → List Elem
  | [], _ => []
  | [c], s => [c.withTailAppended s]
  | c :: c2 :: rest, s => c :: appendTailLast (c2 :: rest) s

/-- lxml text merging, `(x or '') + s` for a present `s`; nothing happens
when `s` is absent. -/
def mergeText : Option String → Option String → Option String
  | acc, none => acc
  | acc, some s => some ((acc.getD "") ++ s)

/-- Joins a dissolved element's text into the current text holder: the
parent text when no sibling was kept yet, the last kept sibling's tail
otherwise. -/
def spliceText (accText : Option String) (kept : List Elem) (txt : Option String) :
    Option String × List Elem :=
  match kept with
  | [] => (mergeText accText txt, [])
  | l => match txt with
    | none => (accText, l)
    | some s => (accText, appendTailLast l s)

/-- One step of `etree.strip_tags`: a child with the target tag is
dissolved — its text joins the preceding text holder, its children are
spliced in its place, and its tail joins the text holder after them; any
other child is kept. The accumulator is the parent text so far and the kept
children. -/
def dissolveStep (t : String) (acc : Option String × List Elem) (c : Elem) :
    Option String × List Elem :=
  if c.tag = t then
    spliceText (spliceText acc.1 acc.2 c.text).1
      ((spliceText acc.1 acc.2 c.text).2 ++ c.children.toList) c.tail
  else (acc.1, acc.2 ++ [c])

mutual
/-- Embeds `etree.strip_tags(body, t)` (used with `div` at core.py line 654
and with `quote` at line 150): matching descendants at every depth are
dissolved bottom-up, their children hoisted in place and their texts merged
into the surrounding text holders; the root is not examined. -/
def stripTags (t : String) : Elem → Elem
  | .mk tg a tx tl cs =>
    let cs2 := stripTagsList t cs
    let r := cs2.foldl (dissolveStep t) (tx, [])
    .mk tg a r.1 tl (ElemList.ofList r.2)
def stripTagsList (t : String) : ElemList → List Elem
  | .nil => []
  | .cons c cs => stripTags t c :: stripTagsList t cs
end

/-- Embeds the output filtering of `extract_content` (core.py lines
653-654): `etree.strip_elements(result_body, 'done')` followed by
`etree.strip_tags(result_body, 'div')`. -/
def extract_content_filter (result_body : Elem) : Elem :=
  stripTags "div" (stripElements "done" result_body)

/-- The internal output vocabulary of §3 together with the root `body`. -/
def internal_vocabulary : List String :=
  ["body", "p", "head", "hi", "ref", "list", "item", "table", "row", "cell",
   "quote", "code", "graphic", "lb", "del", "fw"]

/-! ## Quote handling (core.py `handle_quotes`, lines 139-152) -/

/-- Embeds `handle_quotes` (core.py lines 139-152): a fresh element of the
input's tag; for every node of `element.iter('*')` (the element itself,
then its descendants in document order) that the text-node cleaner accepts,
a flat child carrying the node's tag and the cleaned text and tail; emitted
only when at least one child survives and the joined text is usable, after
stripping nested `quote` tags. -/
def handle_quotes (element : Elem) : Option Elem :=
  let subs := (preorder element).filterMap
    (fun c => (process_node c).map (fun pc => Elem.mk c.tag [] pc.text pc.tail .nil))
  let processed : Elem := .mk element.tag [] none none (ElemList.ofList subs)
  if subs.length > 0 ∧ textCharsTest (some (String.join (itertextStrs processed))) = true then
    some (stripTags "quote" processed)
  else none

/-! ## Concrete inputs used by witnesses and counterexamples -/

/-- State with `no_fallback` set, a non-empty one-child body, a 2-character
text and `sure_thing` false, under the default `MIN_EXTRACTED_SIZE` of 250. -/
def c5_state : FallbackState :=
  ⟨true, false, 2, 250, 1⟩

/-- Environment where the custom extraction yields 1001 characters (above
ten times a `MIN_EXTRACTED_SIZE` of 100) while the readability collaborator
yields 3000 characters which the sanitizer keeps intact. -/
def c9_env : CompareEnv :=
  ⟨100, 1001, 3000, true, 0, 1, false, false, false, 0, false, 0, 0, 3000, 0⟩

/-- Environment in which the HTML loader fails. -/
def c4_env_no_tree : BareExtractionEnv :=
  ⟨false, false, true, true, false, false, false, 0, 0, none, 0, 0, false,
    false, false, 250, 1, "out"⟩

/-- Elements visited by `delete_by_link_density` on `div` with backtracking:
one flagged element, three non-flagged elements sharing the short text "x"
with auxiliary strings, one with the same text but an empty auxiliary list,
and one lone non-flagged element. -/
def c8_items : List LinkDensityItem :=
  [⟨0, true, 0, "menu"⟩, ⟨1, false, 2, "x"⟩, ⟨2, false, 1, "x"⟩,
   ⟨3, false, 1, "x"⟩, ⟨4, false, 0, "x"⟩, ⟨5, false, 1, "unique entry"⟩]

/-- Image-file test by extension used by the C7 witness. -/
def c7_image_file_test (s : String) : Bool :=
  strEndsWith s ".jpg"

/-- Graphic element with a protocol-relative `data-src`, an `alt` and a
`title`. -/
def c7_image_input : Elem :=
  .mk "graphic" [("data-src", "//cdn/img.jpg"), ("alt", "a pic"), ("title", "pic title")]
    none none .nil

/-- HTML document holding nothing but
`<script type="application/ld+json">` with the JSON `{"articleBody":"X"}`
(braces elided in this comment's rendering), the boundary input of claim C6. -/
def c6_tree : Elem :=
  .mk "html" [] none none
    (.cons (.mk "head" [] none none
      (.cons (.mk "script" [("type", "application/ld+json")]
        (some "\x7b\"articleBody\":\"X\"\x7d") none .nil) .nil))
    (.cons (.mk "body" [] none none .nil) .nil))

/-- Same document with a further JSON key after `articleBody`, so that the
literal `","` required by the regex of core.py line 781 is present. -/
def c6_tree_amended : Elem :=
  .mk "html" [] none none
    (.cons (.mk "head" [] none none
      (.cons (.mk "script" [("type", "application/ld+json")]
        (some "\x7b\"articleBody\":\"X\",\"name\":\"Jo\"\x7d") none .nil) .nil))
    (.cons (.mk "body" [] none none .nil) .nil))

/-- Quote element containing a table with one `td` cell, as reaches
`handle_quotes` via `handle_textelem` (core.py lines 524-525) during
wild-text recovery. -/
def c3_quote_input : Elem :=
  .mk "quote" [] none none
    (.cons (.mk "table" [] none none
      (.cons (.mk "tr" [] none none
        (.cons (.mk "td" [] (some "cell text kept") none .nil) .nil)) .nil)) .nil)

/-- Result body assembled as in `recover_wild_text` (core.py lines 512-514):
the surviving handler outputs appended to a fresh `body`. -/
def c3_result_body : Elem :=
  .mk "body" [] none none (ElemList.ofList ([handle_quotes c3_quote_input].filterMap id))

/-! # Theorems -/

/-- C1: `compare_extraction` decides per the spec's table evaluated in
order — the recall bypass, then custom when `L2 ∈ {0, L1}`, readability when
`L1 = 0 ∧ L2 > 0`, custom when `L1 > 2·L2`, readability when `L2 > 2·L1`,
and in the borderline cases readability exactly when
`L2 > 2·MIN_EXTRACTED_SIZE` and either the custom body has no p/quote text
or it has more table than p elements; otherwise custom. -/
theorem claim_C1_compare_table (i : CompareInput) :
    compare_extraction_choice i = compare_extraction_choice_spec i := by
  unfold compare_extraction_choice compare_extraction_choice_spec compare_algo_flag
  rw [Nat.mul_comm 10 i.min_extracted_size, Nat.mul_comm 2 i.min_extracted_size]
  split_ifs <;> first | rfl | tauto

/-- C2: `should_have_space_prior` holds exactly on the empty string and on
strings whose first character is neither a space nor one of the punctuation
class; `should_have_space_next` holds exactly on the empty string and on
strings whose last character is neither a space nor an opening bracket. -/
theorem claim_C2_space_predicates (s : String) :
    (should_have_space_prior s = true ↔
      s.data = [] ∨ ∃ c cs, s.data = c :: cs ∧ c ≠ ' ' ∧
        c ∉ ['.', '?', '!', ',', ':', ';', ')']) ∧
    (should_have_space_next s = true ↔
      s.data = [] ∨ ∃ c cs, s.data = cs ++ [c] ∧ c ≠ ' ' ∧ c ∉ ['[', '(']) := by
  constructor
  · rcases h : s.data with _ | ⟨c, cs⟩
    · simp [should_have_space_prior, h]
    · simp only [should_have_space_prior, h]
      have hr : ((c :: cs : List Char) = [] ∨
          ∃ c2 cs2, (c :: cs : List Char) = c2 :: cs2 ∧ c2 ≠ ' ' ∧
            c2 ∉ ['.', '?', '!', ',', ':', ';', ')']) ↔
          (c ≠ ' ' ∧ c ∉ ['.', '?', '!', ',', ':', ';', ')']) := by
        constructor
        · rintro (h0 | ⟨c2, cs2, heq, hs, hm⟩)
          · exact absurd h0 (List.cons_ne_nil c cs)
          · injection heq with e1 e2
            subst e1
            exact ⟨hs, hm⟩
        · rintro ⟨hs, hm⟩
          exact Or.inr ⟨c, cs, rfl, hs, hm⟩
      rw [hr]
      by_cases h1 : c = ' '
      · rw [if_pos h1]
        simp [h1]
      · rw [if_neg h1]
        by_cases h2 : c = '.' ∨ c = '?' ∨ c = '!' ∨ c = ',' ∨ c = ':' ∨ c = ';' ∨ c = ')'
        · rw [if_pos h2]
          simp only [Bool.false_eq_true, false_iff, not_and]
          intro _ hm
          apply hm
          simp only [List.mem_cons, List.not_mem_nil, or_false]
          tauto
        · rw [if_neg h2]
          constructor
          · intro _
            refine ⟨h1, fun hm => h2 ?_⟩
            simpa using hm
          · intro _
            rfl
  · rcases h : s.data.getLast? with _ | c
    · rw [List.getLast?_eq_none_iff] at h
      simp [should_have_space_next, h]
    · have hex : ∃ ys, s.data = ys ++ [c] := by
        rcases s.data.eq_nil_or_concat with hnil | ⟨ys, b, hyb⟩
        · rw [hnil] at h; cases h
        · rw [List.concat_eq_append] at hyb
          rw [hyb, List.getLast?_concat] at h
          exact ⟨ys, by rw [hyb]; injection h with h2; rw [h2]⟩
      obtain ⟨ys, hys⟩ := hex
      simp only [should_have_space_next, h]
      have hr : (s.data = [] ∨
          ∃ c2 cs2, s.data = cs2 ++ [c2] ∧ c2 ≠ ' ' ∧ c2 ∉ ['[', '(']) ↔
          (c ≠ ' ' ∧ c ∉ ['[', '(']) := by
        constructor
        · rintro (h0 | ⟨c2, cs2, heq, hs, hm⟩)
          · exfalso
            rw [h0] at hys
            have hlen := congrArg List.length hys
            simp at hlen
          · have hc : c2 = c := by
              have h3 := h
              rw [heq, List.getLast?_concat] at h3
              exact Option.some.inj h3
            subst hc
            exact ⟨hs, hm⟩
        · rintro ⟨hs, hm⟩
          exact Or.inr ⟨c, ys, hys, hs, hm⟩
      rw [hr]
      by_cases h1 : c = ' '
      · rw [if_pos h1]
        simp [h1]
      · rw [if_neg h1]
        by_cases h2 : c = '[' ∨ c = '('
        · rw [if_pos h2]
          simp only [Bool.false_eq_true, false_iff, not_and]
          intro _ hm
          apply hm
          simp only [List.mem_cons, List.not_mem_nil, or_false]
          tauto
        · rw [if_neg h2]
          constructor
          · intro _
            refine ⟨h1, fun hm => h2 ?_⟩
            simpa using hm
          · intro _
            rfl

/-- C5 counterexample: with `no_fallback` set, a one-child (non-empty) body
whose text has length 2 and whose extraction was not a sure thing, the
arbiter is skipped and `baseline` IS invoked although the body is not
empty — refuting "baseline is run exactly when the body is still empty". -/
theorem claim_C5_counterexample :
    (fallback_dispatch c5_state).1 = false ∧ (fallback_dispatch c5_state).2 = true ∧
      c5_state.postbody_child_count ≠ 0 := by decide

/-- C5 (amended): when `no_fallback` is set, `compare_extraction` is
skipped, and `baseline` is run exactly when `sure_thing` is false and the
extracted text is shorter than `MIN_EXTRACTED_SIZE`. -/
theorem claim_C5_amended_dispatch (s : FallbackState) (h : s.no_fallback = true) :
    (fallback_dispatch s).1 = false ∧
    ((fallback_dispatch s).2 = true ↔
      s.sure_thing = false ∧ s.len_text < s.min_extracted_size) := by
  unfold fallback_dispatch
  rw [h]
  by_cases h2 : s.sure_thing = false ∧ s.len_text < s.min_extracted_size
  · rw [if_neg (by simp), if_pos h2]
    simpa using h2
  · rw [if_neg (by simp), if_neg h2]
    simpa using h2

/-- C5 witness: the amended dispatch rule evaluated at the concrete state. -/
theorem claim_C5_amended_dispatch_witness :
    c5_state.no_fallback = true ∧
    ((fallback_dispatch c5_state).1 = false ∧
      ((fallback_dispatch c5_state).2 = true ↔
        c5_state.sure_thing = false ∧ c5_state.len_text < c5_state.min_extracted_size)) :=
  ⟨rfl, claim_C5_amended_dispatch c5_state rfl⟩

/-- C9 counterexample: with readability yielding 3000 characters and the
custom extraction 1001 (above ten times `MIN_EXTRACTED_SIZE` = 100), the
`favor_recall` run keeps the 1001-character custom result via the bypass of
core.py lines 711-712 while the default run adopts the 3000-character
readability result — so the recall result is strictly shorter than the
default result, refuting the ordering. -/
theorem claim_C9_counterexample :
    compare_extraction_len true c9_env < compare_extraction_len false c9_env := by decide

/-- C9 (amended): the precision/recall length ordering does not hold in
general; what the bypass guarantees is that with `favor_recall` set and the
custom text longer than ten times `MIN_EXTRACTED_SIZE`, `compare_extraction`
returns the custom text unchanged, whatever the fallback extractors yield. -/
theorem claim_C9_amended_bypass (e : CompareEnv)
    (h : e.len_text > e.min_extracted_size * 10) :
    compare_extraction_len true e = e.len_text := by
  unfold compare_extraction_len
  simp [h]

/-- C9 witness: the bypass rule evaluated at the concrete environment. -/
theorem claim_C9_amended_bypass_witness :
    c9_env.len_text > c9_env.min_extracted_size * 10 ∧
      compare_extraction_len true c9_env = c9_env.len_text :=
  ⟨by decide, claim_C9_amended_bypass c9_env (by decide)⟩

/-- C4: every enumerated error condition of `bare_extraction` (unparseable
HTML, wrong language at either check, blacklisted URL, missing metadata,
too-large tree, too-small result, duplicate) yields the absent result `none`
through the `except ValueError` handler rather than an escaping error, and a
present result is exactly the serialized document of a run in which no error
condition fired. -/
theorem claim_C4_no_exception (e : BareExtractionEnv) :
    (∀ err, bare_extraction_inner e = .error err → extract_model e = none) ∧
    (e.tree_loads = false → extract_model e = none) ∧
    (e.target_language_set = true ∧ e.html_lang_ok = false → extract_model e = none) ∧
    (e.output_format_txt = false ∧ e.url_blacklisted = true → extract_model e = none) ∧
    (e.output_format_txt = false ∧ e.only_with_metadata = true ∧ e.metadata_missing = true →
      extract_model e = none) ∧
    (∀ m, e.max_tree_size = some m → e.postbody_child_count > m →
      e.child_count_after_strip > m → extract_model e = none) ∧
    (e.len_text < e.min_output_size ∧ e.len_comments < e.min_output_comm_size →
      extract_model e = none) ∧
    (e.deduplicate = true ∧ e.is_duplicate = true → extract_model e = none) ∧
    (e.target_language_set = true ∧ e.language_filter_fails = true → extract_model e = none) ∧
    (∀ s, extract_model e = some s → s = e.serialized ∧ bare_extraction_inner e = .ok ()) := by
  have hnone : ∀ err, bare_extraction_inner e = .error err → extract_model e = none := by
    intro err herr
    unfold extract_model bare_extraction_model
    rw [herr]
  have hnotok : bare_extraction_inner e ≠ .ok () → extract_model e = none := by
    intro hne
    rcases hinner : bare_extraction_inner e with err | u
    · exact hnone err hinner
    · cases u
      exact absurd hinner hne
  refine ⟨hnone, ?_, ?_, ?_, ?_, ?_, ?_, ?_, ?_, ?_⟩
  · intro hc
    apply hnotok
    unfold bare_extraction_inner
    split_ifs <;> simp_all
  · intro hc
    apply hnotok
    unfold bare_extraction_inner
    split_ifs <;> simp_all
  · intro hc
    apply hnotok
    unfold bare_extraction_inner
    split_ifs <;> simp_all
  · intro hc
    apply hnotok
    unfold bare_extraction_inner
    split_ifs <;> simp_all
  · intro m hm hc1 hc2
    apply hnotok
    unfold bare_extraction_inner
    split_ifs <;> simp_all
  · intro hc
    apply hnotok
    unfold bare_extraction_inner
    split_ifs <;> simp_all
  · intro hc
    apply hnotok
    unfold bare_extraction_inner
    split_ifs <;> simp_all
  · intro hc
    apply hnotok
    unfold bare_extraction_inner
    split_ifs <;> simp_all
  · intro s hs
    unfold extract_model bare_extraction_model at hs
    rcases hinner : bare_extraction_inner e with err | u
    · rw [hinner] at hs
      cases hs
    · rw [hinner] at hs
      cases u
      injection hs with hs2
      exact ⟨hs2.symm, rfl⟩

/-- C4 witness: an environment whose HTML fails to load produces the absent
result. -/
theorem claim_C4_no_exception_witness :
    c4_env_no_tree.tree_loads = false ∧ extract_model c4_env_no_tree = none :=
  ⟨rfl, (claim_C4_no_exception c4_env_no_tree).2.1 rfl⟩

/-- C7: for every graphic element passed to `handle_image`, the result is
either `None` or a graphic element with a non-empty `src` that never starts
with `//` (a selected protocol-relative source is rewritten to `http://`);
the source is selected from `data-src`, then `src`, then the first attribute
whose name starts with `data-src`, each subject to the image-file test; and
`alt`, `class` and `title` are copied when present on the input. -/
theorem claim_C7_handle_image (f : String → Bool) (element : Elem)
    (h : element.tag = "graphic") :
    handle_image f element = none ∨
    ∃ r, handle_image f element = some r ∧
      r.tag = "graphic" ∧
      (∃ s, r.get "src" = some s ∧ s ≠ "" ∧ ¬ s.data.take 2 = ['/', '/']) ∧
      (isImageFileOpt f (element.get "data-src") = true →
        r.get "src" = (element.get "data-src").map rewriteProtocolRelative) ∧
      (isImageFileOpt f (element.get "data-src") = false →
        isImageFileOpt f (element.get "src") = true →
        r.get "src" = (element.get "src").map rewriteProtocolRelative) ∧
      (isImageFileOpt f (element.get "data-src") = false →
        isImageFileOpt f (element.get "src") = false →
        ∃ kv, element.attrs.find? (fun a => strStartsWith a.1 "data-src" && f a.2) = some kv ∧
          r.get "src" = some (rewriteProtocolRelative kv.2)) ∧
      (∀ v, element.get "alt" = some v → r.get "alt" = some v) ∧
      (∀ v, element.get "class" = some v → r.get "class" = some v) ∧
      (∀ v, element.get "title" = some v → r.get "title" = some v) := by
  rcases hs : select_image_src f element with _ | u
  · exact Or.inl (by simp [handle_image, hs])
  · by_cases hu : u = ""
    · exact Or.inl (by simp [handle_image, hs, hu])
    · refine Or.inr ⟨Elem.mk element.tag
        (("src", rewriteProtocolRelative u) :: image_extra_attrs element) none none .nil,
        by simp [handle_image, hs, hu], ?_, ?_, ?_, ?_, ?_, ?_, ?_, ?_⟩
      · simpa [Elem.tag] using h
      · refine ⟨rewriteProtocolRelative u, ?_, ?_, ?_⟩
        · simp [Elem.get, Elem.attrs, List.find?]
        · unfold rewriteProtocolRelative
          split_ifs with h2
          · intro he
            have hd : ("http://" ++ String.mk (List.drop 2 u.data)).data.take 2 = ['h', 't'] := rfl
            rw [he] at hd
            exact absurd hd (by decide)
          · exact hu
        · unfold rewriteProtocolRelative
          split_ifs with h2
          · have hd : ("http://" ++ String.mk (List.drop 2 u.data)).data.take 2 = ['h', 't'] := rfl
            rw [hd]
            decide
          · exact h2
      · intro hds
        unfold select_image_src at hs
        rw [if_pos hds] at hs
        rw [hs]
        simp [Elem.get, Elem.attrs, List.find?]
      · intro hds hsrc
        unfold select_image_src at hs
        rw [if_neg (by simp [hds]), if_pos hsrc] at hs
        rw [hs]
        simp [Elem.get, Elem.attrs, List.find?]
      · intro hds hsrc
        unfold select_image_src at hs
        rw [if_neg (by simp [hds]), if_neg (by simp [hsrc])] at hs
        rcases hfind : element.attrs.find? (fun kv => strStartsWith kv.1 "data-src" && f kv.2)
          with _ | kv
        · rw [hfind] at hs
          cases hs
        · rw [hfind] at hs
          refine ⟨kv, hfind, ?_⟩
          have hs2 : kv.2 = u := Option.some.inj hs
          rw [← hs2]
          simp [Elem.get, Elem.attrs, List.find?]
      · intro v hv
        rcases hc : element.get "class" with _ | c <;>
          rcases ht : element.get "title" with _ | t <;>
          · simp only [image_extra_attrs, hv, hc, ht]
            simp [Elem.get, Elem.attrs, List.find?]
      · intro v hv
        rcases ha : element.get "alt" with _ | a <;>
          rcases ht : element.get "title" with _ | t <;>
          · simp only [image_extra_attrs, hv, ha, ht]
            simp [Elem.get, Elem.attrs, List.find?]
      · intro v hv
        rcases ha : element.get "alt" with _ | a <;>
          rcases hc : element.get "class" with _ | c <;>
          · simp only [image_extra_attrs, hv, ha, hc]
            simp [Elem.get, Elem.attrs, List.find?]

/-- C7 witness: `handle_image` evaluated on a graphic carrying a
protocol-relative `data-src`, an `alt` and a `title`. -/
theorem claim_C7_handle_image_witness :
    c7_image_input.tag = "graphic" ∧
    (handle_image c7_image_file_test c7_image_input = none ∨
    ∃ r, handle_image c7_image_file_test c7_image_input = some r ∧
      r.tag = "graphic" ∧
      (∃ s, r.get "src" = some s ∧ s ≠ "" ∧ ¬ s.data.take 2 = ['/', '/']) ∧
      (isImageFileOpt c7_image_file_test (c7_image_input.get "data-src") = true →
        r.get "src" = (c7_image_input.get "data-src").map rewriteProtocolRelative) ∧
      (isImageFileOpt c7_image_file_test (c7_image_input.get "data-src") = false →
        isImageFileOpt c7_image_file_test (c7_image_input.get "src") = true →
        r.get "src" = (c7_image_input.get "src").map rewriteProtocolRelative) ∧
      (isImageFileOpt c7_image_file_test (c7_image_input.get "data-src") = false →
        isImageFileOpt c7_image_file_test (c7_image_input.get "src") = false →
        ∃ kv, c7_image_input.attrs.find?
            (fun a => strStartsWith a.1 "data-src" && c7_image_file_test a.2) = some kv ∧
          r.get "src" = some (rewriteProtocolRelative kv.2)) ∧
      (∀ v, c7_image_input.get "alt" = some v → r.get "alt" = some v) ∧
      (∀ v, c7_image_input.get "class" = some v → r.get "class" = some v) ∧
      (∀ v, c7_image_input.get "title" = some v → r.get "title" = some v)) :=
  ⟨rfl, claim_C7_handle_image c7_image_file_test c7_image_input rfl⟩

/-- C10: when the HTML loader fails to parse the input, `baseline` returns
the triple (empty body, integer 0, empty string) — text and length occupy
swapped positions relative to every other return path, all of which return
(body, text string, integer length of that text). -/
theorem claim_C10_baseline_swapped :
    baseline none = (Elem.mk "body" [] none none .nil, BaselineVal.int 0, BaselineVal.str "") ∧
    ∀ t : Elem, ∃ b s,
      baseline (some t) = (b, BaselineVal.str s, BaselineVal.int s.length) := by
  refine ⟨rfl, ?_⟩
  intro t
  simp only [baseline, paragraphScan]
  split
  · exact ⟨_, _, rfl⟩
  · split
    · split
      · exact ⟨_, _, rfl⟩
      · exact ⟨_, _, rfl⟩
    · exact ⟨_, _, rfl⟩

/-- C6 counterexample: on the document whose only content is the JSON-LD
script with exactly the JSON object `"articleBody": "X"` and nothing after
it, `baseline` returns an EMPTY body with empty text and length 0 — not a
body with one `p` carrying `X` — because the regex of core.py line 781
requires a literal `","` after the captured value. -/
theorem claim_C6_counterexample :
    baseline (some c6_tree) =
      (Elem.mk "body" [] none none .nil, BaselineVal.str "", BaselineVal.int 0) ∧
    (baseline (some c6_tree)).1.children = ElemList.nil :=
  ⟨rfl, rfl⟩

/-- C6 (amended): when the script's JSON carries a further key after
`articleBody` — so that the `","` required by the regex follows the value —
`baseline` returns a body with exactly one `p` child whose text is `X`,
together with the text `X` and its length. -/
theorem claim_C6_amended_json :
    baseline (some c6_tree_amended) =
      (Elem.mk "body" [] none none (.cons (.mk "p" [] (some "X") none .nil) .nil),
        BaselineVal.str "X", BaselineVal.int 1) := rfl

/-- Appending to an element's tail leaves its tags unchanged. -/
theorem allTags_withTailAppended (c : Elem) (s : String) :
    allTags (c.withTailAppended s) = allTags c := by
  cases c
  rfl

/-- Appending to the last tail of a list leaves the tags unchanged. -/
theorem tagsOfL_appendTailLast (l : List Elem) (s : String) :
    tagsOfL (appendTailLast l s) = tagsOfL l := by
  induction l with
  | nil => rfl
  | cons c rest ih =>
    rcases rest with _ | ⟨c2, rest2⟩
    · simp [appendTailLast, tagsOfL, allTags_withTailAppended]
    · simp only [appendTailLast, tagsOfL, List.flatMap_cons] at ih ⊢
      rw [ih]

/-- `spliceText` leaves the tags of the kept children unchanged. -/
theorem tagsOfL_spliceText (a : Option String) (k : List Elem) (txt : Option String) :
    tagsOfL (spliceText a k txt).2 = tagsOfL k := by
  rcases k with _ | ⟨c0, k0⟩
  · rfl
  · rcases txt with _ | s
    · rfl
    · simp only [spliceText]
      exact tagsOfL_appendTailLast (c0 :: k0) s

/-- Tag lists commute with the `ElemList`/`List` conversion. -/
theorem descTagsList_ofList (l : List Elem) :
    descTagsList (ElemList.ofList l) = tagsOfL l := by
  induction l with
  | nil => rfl
  | cons c rest ih =>
    simp only [ElemList.ofList, descTagsList, tagsOfL, List.flatMap_cons, allTags] at ih ⊢
    rw [ih]

/-- Tags of a list of elements split over an append. -/
theorem tagsOfL_append (l1 l2 : List Elem) :
    tagsOfL (l1 ++ l2) = tagsOfL l1 ++ tagsOfL l2 := by
  simp [tagsOfL]

/-- Tag lists commute with the `List`/`ElemList` conversion. -/
theorem tagsOfL_toList (cs : ElemList) :
    tagsOfL (ElemList.toList cs) = descTagsList cs := by
  cases cs with
  | nil => rfl
  | cons c rest =>
    have ih := tagsOfL_toList rest
    simp only [ElemList.toList, descTagsList, tagsOfL, List.flatMap_cons, allTags] at ih ⊢
    rw [ih]

/-- The descendant tags of an element are the tags of its child list. -/
theorem descTags_eq_children (c : Elem) :
    tagsOfL (ElemList.toList c.children) = descTags c := by
  cases c with
  | mk tg a tx tl cs => simpa [Elem.children, descTags] using tagsOfL_toList cs

/-- `stripTags` leaves the root tag unchanged. -/
theorem stripTags_tag (t : String) (e : Elem) : (stripTags t e).tag = e.tag := by
  cases e
  rfl

/-- `stripElements` leaves the root tag unchanged. -/
theorem stripElements_tag (t : String) (e : Elem) : (stripElements t e).tag = e.tag := by
  cases e
  rfl

/-- One dissolving step only keeps tags of the accumulator or of the current
child, and from a child with the target tag whose subtree is clean only
clean descendant tags survive. -/
theorem dissolveStep_tags (t : String) (acc : Option String × List Elem) (c : Elem)
    (hc : ∀ x ∈ descTags c, x ≠ t) :
    ∀ x ∈ tagsOfL (dissolveStep t acc c).2,
      x ∈ tagsOfL acc.2 ∨ (x ∈ allTags c ∧ x ≠ t) := by
  intro x hx
  unfold dissolveStep at hx
  by_cases hct : c.tag = t
  · rw [if_pos hct, tagsOfL_spliceText, tagsOfL_append, tagsOfL_spliceText] at hx
    rcases List.mem_append.mp hx with h1 | h2
    · exact Or.inl h1
    · right
      have h3 : x ∈ descTags c := by
        rw [← descTags_eq_children]
        exact h2
      exact ⟨List.mem_cons_of_mem _ h3, hc x h3⟩
  · rw [if_neg hct, tagsOfL_append] at hx
    rcases List.mem_append.mp hx with h1 | h2
    · exact Or.inl h1
    · right
      have h2b : x ∈ allTags c := by
        simpa [tagsOfL] using h2
      refine ⟨h2b, ?_⟩
      unfold allTags at h2b
      rcases List.mem_cons.mp h2b with h3 | h3
      · rw [h3]; exact hct
      · exact hc x h3

/-- Folding the dissolving step over cleaned children only keeps tags of the
initial accumulator or clean tags of the children. -/
theorem foldl_dissolve_tags (t : String) (cs : List Elem)
    (hcs : ∀ c ∈ cs, ∀ x ∈ descTags c, x ≠ t) :
    ∀ acc, ∀ x ∈ tagsOfL (cs.foldl (dissolveStep t) acc).2,
      x ∈ tagsOfL acc.2 ∨ (∃ c ∈ cs, x ∈ allTags c ∧ x ≠ t) := by
  induction cs with
  | nil =>
    intro acc x hx
    exact Or.inl hx
  | cons c rest ih =>
    intro acc x hx
    rw [List.foldl_cons] at hx
    rcases ih (fun c2 h2 => hcs c2 (List.mem_cons_of_mem _ h2)) _ x hx with h | ⟨c2, hc2, hmem⟩
    · rcases dissolveStep_tags t acc c (hcs c (List.mem_cons_self c rest)) x h with h2 | h2
      · exact Or.inl h2
      · exact Or.inr ⟨c, List.mem_cons_self c rest, h2⟩
    · exact Or.inr ⟨c2, List.mem_cons_of_mem _ hc2, hmem⟩

mutual
/-- Every descendant tag surviving `stripTags` was a descendant tag before
and differs from the stripped tag. -/
theorem stripTags_descTags (t : String) (e : Elem) :
    ∀ x ∈ descTags (stripTags t e), x ∈ descTags e ∧ x ≠ t := by
  cases e with
  | mk tg a tx tl cs =>
    intro x hx
    have hlist := stripTagsList_tags t cs
    simp only [stripTags, descTags] at hx
    rw [descTagsList_ofList] at hx
    rcases foldl_dissolve_tags t (stripTagsList t cs) hlist.2 (tx, []) x hx with h | ⟨c2, hc2, hmem, hne⟩
    · simp [tagsOfL] at h
    · have hx2 : x ∈ tagsOfL (stripTagsList t cs) :=
        List.mem_flatMap.mpr ⟨c2, hc2, hmem⟩
      exact ⟨by simpa [descTags] using hlist.1 x hx2, hne⟩

/-- List version: surviving tags come from the original tag list, and every
stripped child has a clean subtree. -/
theorem stripTagsList_tags (t : String) (cs : ElemList) :
    (∀ x ∈ tagsOfL (stripTagsList t cs), x ∈ descTagsList cs) ∧
    (∀ c ∈ stripTagsList t cs, ∀ x ∈ descTags c, x ≠ t) := by
  cases cs with
  | nil =>
    constructor
    · intro x hx
      simp [stripTagsList, tagsOfL] at hx
    · intro c hc
      simp [stripTagsList] at hc
  | cons c cs2 =>
    have he := stripTags_descTags t c
    have ih := stripTagsList_tags t cs2
    constructor
    · intro x hx
      simp only [stripTagsList, tagsOfL, List.flatMap_cons] at hx
      simp only [descTagsList, List.mem_append, List.mem_cons]
      rcases List.mem_append.mp hx with h1 | h2
      · rcases List.mem_cons.mp h1 with hx1 | hx2
        · left
          left
          rw [hx1, stripTags_tag]
        · left
          right
          exact (he x hx2).1
      · right
        exact ih.1 x h2
    · intro c2 hc2
      simp only [stripTagsList, List.mem_cons] at hc2
      rcases hc2 with h1 | h2
      · intro x hx
        rw [h1] at hx
        exact (he x hx).2
      · exact ih.2 c2 h2
end

mutual
/-- Every descendant tag surviving `stripElements` was a descendant tag
before and differs from the stripped tag. -/
theorem stripElements_descTags (t : String) (e : Elem) :
    ∀ x ∈ descTags (stripElements t e), x ∈ descTags e ∧ x ≠ t := by
  cases e with
  | mk tg a tx tl cs =>
    intro x hx
    simp only [stripElements, descTags] at hx
    simpa [descTags] using stripElementsList_descTags t cs x hx

/-- List version of `stripElements_descTags`. -/
theorem stripElementsList_descTags (t : String) (cs : ElemList) :
    ∀ x ∈ descTagsList (stripElementsList t cs), x ∈ descTagsList cs ∧ x ≠ t := by
  cases cs with
  | nil =>
    intro x hx
    simp [stripElementsList, descTagsList] at hx
  | cons c cs2 =>
    intro x hx
    simp only [descTagsList, List.mem_append, List.mem_cons]
    by_cases hct : c.tag = t
    · rw [show stripElementsList t (ElemList.cons c cs2) = stripElementsList t cs2 by
        simp [stripElementsList, hct]] at hx
      have := stripElementsList_descTags t cs2 x hx
      exact ⟨Or.inr this.1, this.2⟩
    · rw [show stripElementsList t (ElemList.cons c cs2) =
        ElemList.cons (stripElements t c) (stripElementsList t cs2) by
        simp [stripElementsList, hct]] at hx
      simp only [descTagsList, List.mem_append, List.mem_cons] at hx
      rcases hx with (h1 | h2) | h3
      · rw [stripElements_tag] at h1
        exact ⟨Or.inl (Or.inl h1), by rw [h1]; exact hct⟩
      · have := stripElements_descTags t c x h2
        exact ⟨Or.inl (Or.inr this.1), this.2⟩
      · have := stripElementsList_descTags t cs2 x h3
        exact ⟨Or.inr this.1, this.2⟩
end

/-- C3 (amended): after the final filtering of `extract_content` (stripping
`done` elements and dissolving `div` tags), no element of the returned body
is tagged `done` and none is tagged `div`; the vocabulary invariant itself
does not hold, since the rewriters copy source tags into the output. -/
theorem claim_C3_amended_no_done_no_div (result_body : Elem)
    (h : result_body.tag = "body") :
    ∀ x ∈ allTags (extract_content_filter result_body), x ≠ "done" ∧ x ≠ "div" := by
  intro x hx
  unfold extract_content_filter at hx
  unfold allTags at hx
  rcases List.mem_cons.mp hx with h1 | h2
  · rw [stripTags_tag, stripElements_tag, h] at h1
    rw [h1]
    exact ⟨by decide, by decide⟩
  · have hdiv := stripTags_descTags "div" (stripElements "done" result_body) x h2
    have hdone := stripElements_descTags "done" result_body x hdiv.1
    exact ⟨hdone.2, hdiv.2⟩

/-- C3 witness: the filtering invariant applied to the concrete body
assembled from `handle_quotes` output. -/
theorem claim_C3_amended_no_done_no_div_witness :
    c3_result_body.tag = "body" ∧
    ∀ x ∈ allTags (extract_content_filter c3_result_body), x ≠ "done" ∧ x ≠ "div" :=
  ⟨rfl, claim_C3_amended_no_done_no_div c3_result_body rfl⟩

/-- C3 counterexample: a body assembled exactly as in the source — the
`handle_quotes` rewrite of a quote containing a table cell, appended to the
result body (core.py lines 512-514) and passed through the final filter of
lines 653-654 — still contains an element tagged `td`, which is outside the
internal vocabulary; so not every element of the returned body has a tag in
the vocabulary. -/
theorem claim_C3_counterexample :
    "td" ∈ allTags (extract_content_filter c3_result_body) ∧
    "td" ∉ internal_vocabulary := by decide

/-- Membership in the de-duplication pass: an element survives exactly when
it occurs in the input and was not already seen. -/
theorem mem_uniquify_go (l : List LinkDensityItem) :
    ∀ (seen : List LinkDensityItem) (x : LinkDensityItem),
      x ∈ uniquify_go seen l ↔ x ∈ l ∧ x ∉ seen := by
  induction l with
  | nil =>
    intro seen x
    simp [uniquify_go]
  | cons y ys ih =>
    intro seen x
    by_cases hy : y ∈ seen
    · rw [show uniquify_go seen (y :: ys) = uniquify_go seen ys by simp [uniquify_go, hy]]
      rw [ih seen x]
      constructor
      · rintro ⟨h1, h2⟩
        exact ⟨List.mem_cons_of_mem _ h1, h2⟩
      · rintro ⟨h1, h2⟩
        rcases List.mem_cons.mp h1 with h3 | h3
        · exact absurd (h3 ▸ hy) h2
        · exact ⟨h3, h2⟩
    · rw [show uniquify_go seen (y :: ys) = y :: uniquify_go (y :: seen) ys by
        simp [uniquify_go, hy]]
      constructor
      · intro h1
        rcases List.mem_cons.mp h1 with h3 | h3
        · exact ⟨by rw [h3]; exact List.mem_cons_self y ys, by rw [h3]; exact hy⟩
        · have h4 := (ih (y :: seen) x).mp h3
          exact ⟨List.mem_cons_of_mem _ h4.1,
            fun hmem => h4.2 (List.mem_cons_of_mem _ hmem)⟩
      · rintro ⟨h1, h2⟩
        by_cases hxy : x = y
        · rw [hxy]
          exact List.mem_cons_self y _
        · rcases List.mem_cons.mp h1 with h3 | h3
          · exact absurd h3 hxy
          · refine List.mem_cons_of_mem _ ((ih (y :: seen) x).mpr ⟨h3, ?_⟩)
            intro hm
            rcases List.mem_cons.mp hm with h4 | h4
            · exact hxy h4
            · exact h2 h4

/-- The de-duplication pass yields a list without duplicates. -/
theorem nodup_uniquify_go (l : List LinkDensityItem) :
    ∀ seen : List LinkDensityItem, (uniquify_go seen l).Nodup := by
  induction l with
  | nil =>
    intro seen
    simp [uniquify_go]
  | cons y ys ih =>
    intro seen
    by_cases hy : y ∈ seen
    · simpa [uniquify_go, hy] using ih seen
    · rw [show uniquify_go seen (y :: ys) = y :: uniquify_go (y :: seen) ys by
        simp [uniquify_go, hy]]
      refine List.nodup_cons.mpr ⟨?_, ih (y :: seen)⟩
      intro hmem
      exact ((mem_uniquify_go ys (y :: seen) y).mp hmem).2 (List.mem_cons_self y seen)

/-- `add_to_groups` always yields a group keyed by the item's text. -/
theorem add_to_groups_has_key (gs : List (String × List LinkDensityItem))
    (it : LinkDensityItem) :
    ∃ g ∈ add_to_groups gs it, g.1 = it.text := by
  induction gs with
  | nil => exact ⟨(it.text, [it]), List.mem_cons_self _ _, rfl⟩
  | cons g0 rest ih =>
    rcases g0 with ⟨t0, l0⟩
    by_cases h : t0 = it.text
    · exact ⟨(t0, l0 ++ [it]), by simp [add_to_groups, h], h⟩
    · obtain ⟨g, hg, hk⟩ := ih
      exact ⟨g, by simp [add_to_groups, h, List.mem_cons, hg], hk⟩

/-- `add_to_groups` preserves all existing keys. -/
theorem add_to_groups_keeps_key (gs : List (String × List LinkDensityItem))
    (it : LinkDensityItem) (g : String × List LinkDensityItem) (hg : g ∈ gs) :
    ∃ g2 ∈ add_to_groups gs it, g2.1 = g.1 := by
  induction gs with
  | nil => cases hg
  | cons g0 rest ih =>
    rcases g0 with ⟨t0, l0⟩
    by_cases h : t0 = it.text
    · rw [show add_to_groups ((t0, l0) :: rest) it = (t0, l0 ++ [it]) :: rest by
        simp [add_to_groups, h]]
      rcases List.mem_cons.mp hg with h1 | h1
      · exact ⟨(t0, l0 ++ [it]), List.mem_cons_self _ _, by rw [h1]⟩
      · exact ⟨g, List.mem_cons_of_mem _ h1, rfl⟩
    · rw [show add_to_groups ((t0, l0) :: rest) it =
        (t0, l0) :: add_to_groups rest it by simp [add_to_groups, h]]
      rcases List.mem_cons.mp hg with h1 | h1
      · exact ⟨(t0, l0), List.mem_cons_self _ _, by rw [h1]⟩
      · obtain ⟨g2, hg2, hk⟩ := ih h1
        exact ⟨g2, List.mem_cons_of_mem _ hg2, hk⟩

/-- Keys appearing after `add_to_groups` come from the old keys or are the
item's text. -/
theorem add_to_groups_key_source (gs : List (String × List LinkDensityItem))
    (it : LinkDensityItem) :
    ∀ x ∈ (add_to_groups gs it).map Prod.fst, x ∈ gs.map Prod.fst ∨ x = it.text := by
  induction gs with
  | nil =>
    intro x hx
    simp [add_to_groups] at hx
    exact Or.inr hx
  | cons g0 rest ih =>
    rcases g0 with ⟨t0, l0⟩
    intro x hx
    by_cases h : t0 = it.text
    · rw [show add_to_groups ((t0, l0) :: rest) it = (t0, l0 ++ [it]) :: rest by
        simp [add_to_groups, h]] at hx
      simp only [List.map_cons, List.mem_cons] at hx ⊢
      tauto
    · rw [show add_to_groups ((t0, l0) :: rest) it =
        (t0, l0) :: add_to_groups rest it by simp [add_to_groups, h]] at hx
      simp only [List.map_cons, List.mem_cons] at hx ⊢
      rcases hx with h1 | h1
      · exact Or.inl (Or.inl h1)
      · rcases ih x h1 with h2 | h2
        · exact Or.inl (Or.inr h2)
        · exact Or.inr h2

/-- `add_to_groups` preserves distinctness of the group keys. -/
theorem add_to_groups_keys_nodup (gs : List (String × List LinkDensityItem))
    (it : LinkDensityItem) (hnd : (gs.map Prod.fst).Nodup) :
    ((add_to_groups gs it).map Prod.fst).Nodup := by
  induction gs with
  | nil => simp [add_to_groups]
  | cons g0 rest ih =>
    rcases g0 with ⟨t0, l0⟩
    simp only [List.map_cons, List.nodup_cons] at hnd
    by_cases h : t0 = it.text
    · rw [show add_to_groups ((t0, l0) :: rest) it = (t0, l0 ++ [it]) :: rest by
        simp [add_to_groups, h]]
      simp only [List.map_cons, List.nodup_cons]
      exact hnd
    · rw [show add_to_groups ((t0, l0) :: rest) it =
        (t0, l0) :: add_to_groups rest it by simp [add_to_groups, h]]
      simp only [List.map_cons, List.nodup_cons]
      refine ⟨?_, ih hnd.2⟩
      intro hmem
      rcases add_to_groups_key_source rest it t0 hmem with h2 | h2
      · exact hnd.1 h2
      · exact h h2

/-- Content of the groups after adding an eligible item: the group of the
item's text gains the item at its end, all groups still hold exactly the
eligible prefix items with their text. -/
theorem add_to_groups_content (it : LinkDensityItem) (pre : List LinkDensityItem)
    (hel : backtrack_eligible it = true) :
    ∀ gs : List (String × List LinkDensityItem),
    ((gs.map Prod.fst).Nodup) →
    (∀ g ∈ gs, g.2 = pre.filter (fun j => backtrack_eligible j && (j.text == g.1))) →
    (pre.filter (fun j => backtrack_eligible j && (j.text == it.text)) ≠ [] →
      ∃ g ∈ gs, g.1 = it.text) →
    ∀ g2 ∈ add_to_groups gs it,
      g2.2 = (pre ++ [it]).filter (fun j => backtrack_eligible j && (j.text == g2.1)) := by
  intro gs
  induction gs with
  | nil =>
    intro _ _ hB g2 hg2
    simp only [add_to_groups, List.mem_singleton] at hg2
    have hempty : pre.filter (fun j => backtrack_eligible j && (j.text == it.text)) = [] := by
      by_contra hne
      obtain ⟨g, hg, -⟩ := hB hne
      cases hg
    rw [hg2]
    rw [List.filter_append]
    simp [hempty, List.filter, hel]
  | cons g0 rest ih =>
    intro hnd hA hB g2 hg2
    rcases g0 with ⟨t0, l0⟩
    simp only [List.map_cons, List.nodup_cons] at hnd
    by_cases h : t0 = it.text
    · rw [show add_to_groups ((t0, l0) :: rest) it = (t0, l0 ++ [it]) :: rest by
        simp [add_to_groups, h]] at hg2
      rcases List.mem_cons.mp hg2 with h1 | h1
      · have hl0 := hA (t0, l0) (List.mem_cons_self _ _)
        rw [h1, List.filter_append]
        rw [show ((t0, l0 ++ [it]) : String × List LinkDensityItem).2 = l0 ++ [it] from rfl]
        rw [show ((t0, l0 ++ [it]) : String × List LinkDensityItem).1 = t0 from rfl]
        rw [show l0 = pre.filter (fun j => backtrack_eligible j && (j.text == t0)) from hl0]
        congr 1
        have hbeq : (it.text == t0) = true := by
          rw [beq_iff_eq]
          exact h.symm
        simp [List.filter, hel, hbeq]
      · have hkey : g2.1 ∈ rest.map Prod.fst := List.mem_map_of_mem Prod.fst h1
        have hne : g2.1 ≠ it.text := by
          intro he
          apply hnd.1
          rw [← h] at he
          rw [← he]
          exact hkey
        have hg2v := hA g2 (List.mem_cons_of_mem _ h1)
        rw [List.filter_append, ← hg2v]
        have hf : (it.text == g2.1) = false := by
          rw [beq_eq_false_iff_ne]
          exact fun he => hne he.symm
        simp [List.filter, hf]
    · rw [show add_to_groups ((t0, l0) :: rest) it =
        (t0, l0) :: add_to_groups rest it by simp [add_to_groups, h]] at hg2
      rcases List.mem_cons.mp hg2 with h1 | h1
      · have hl0 := hA (t0, l0) (List.mem_cons_self _ _)
        rw [h1, List.filter_append, ← hl0]
        have hf : (it.text == t0) = false := by
          rw [beq_eq_false_iff_ne]
          exact fun he => h he.symm
        rw [show ((t0, l0) : String × List LinkDensityItem).1 = t0 from rfl] at hl0 ⊢
        simp [List.filter, hf]
      · refine ih hnd.2 (fun g hg => hA g (List.mem_cons_of_mem _ hg)) ?_ g2 h1
        intro hne2
        obtain ⟨g, hg, hk⟩ := hB hne2
        rcases List.mem_cons.mp hg with h2 | h2
        · exact absurd (by rw [h2] at hk; exact hk) h
        · exact ⟨g, h2, hk⟩

/-- After adding an item, every text with a non-empty eligible filter over
the extended prefix has a group. -/
theorem add_to_groups_covers (it : LinkDensityItem) (pre : List LinkDensityItem)
    (gs : List (String × List LinkDensityItem))
    (hB : ∀ tx, pre.filter (fun j => backtrack_eligible j && (j.text == tx)) ≠ [] →
      ∃ g ∈ gs, g.1 = tx) :
    ∀ tx, (pre ++ [it]).filter (fun j => backtrack_eligible j && (j.text == tx)) ≠ [] →
      ∃ g ∈ add_to_groups gs it, g.1 = tx := by
  intro tx hne
  by_cases htx : tx = it.text
  · rw [htx]
    exact add_to_groups_has_key gs it
  · rw [List.filter_append] at hne
    have hf : (it.text == tx) = false := by
      rw [beq_eq_false_iff_ne]
      exact fun he => htx he.symm
    have h1 : pre.filter (fun j => backtrack_eligible j && (j.text == tx)) ≠ [] := by
      intro h0
      apply hne
      rw [h0]
      simp [List.filter, hf]
    obtain ⟨g, hg, hk⟩ := hB tx h1
    obtain ⟨g2, hg2, hk2⟩ := add_to_groups_keeps_key gs it g hg
    exact ⟨g2, hg2, by rw [hk2, hk]⟩

/-- One collection step preserves the loop invariant of
`delete_by_link_density`: the first accumulator component holds exactly the
flagged elements of the processed prefix, and the groups hold exactly the
eligible elements keyed by their trimmed text. -/
theorem collect_step_spec (it : LinkDensityItem) (pre : List LinkDensityItem)
    (acc : List LinkDensityItem × List (String × List LinkDensityItem))
    (h1 : acc.1 = pre.filter (fun j => j.flagged))
    (h2 : (acc.2.map Prod.fst).Nodup)
    (h3 : ∀ g ∈ acc.2, g.2 = pre.filter (fun j => backtrack_eligible j && (j.text == g.1)))
    (h4 : ∀ tx, pre.filter (fun j => backtrack_eligible j && (j.text == tx)) ≠ [] →
      ∃ g ∈ acc.2, g.1 = tx) :
    (collect_step true acc it).1 = (pre ++ [it]).filter (fun j => j.flagged) ∧
    (((collect_step true acc it).2.map Prod.fst).Nodup) ∧
    (∀ g ∈ (collect_step true acc it).2,
      g.2 = (pre ++ [it]).filter (fun j => backtrack_eligible j && (j.text == g.1))) ∧
    (∀ tx, (pre ++ [it]).filter (fun j => backtrack_eligible j && (j.text == tx)) ≠ [] →
      ∃ g ∈ (collect_step true acc it).2, g.1 = tx) := by
  by_cases hfl : it.flagged = true
  · have hel : backtrack_eligible it = false := by
      simp [backtrack_eligible, hfl]
    rw [show collect_step true acc it = (acc.1 ++ [it], acc.2) by
      simp [collect_step, hfl]]
    refine ⟨?_, h2, ?_, ?_⟩
    · rw [List.filter_append, ← h1]
      simp [List.filter, hfl]
    · intro g hg
      rw [List.filter_append, ← h3 g hg]
      simp [List.filter, hel]
    · intro tx hne
      rw [List.filter_append] at hne
      apply h4
      intro h0
      apply hne
      rw [h0]
      simp [List.filter, hel]
  · have hfl2 : it.flagged = false := by
      simp only [Bool.not_eq_true] at hfl
      exact hfl
    by_cases haux : it.aux_count > 0
    · have hel : backtrack_eligible it = true := by
        simp [backtrack_eligible, hfl2, haux]
      rw [show collect_step true acc it = (acc.1, add_to_groups acc.2 it) by
        simp [collect_step, hfl, haux]]
      refine ⟨?_, add_to_groups_keys_nodup acc.2 it h2, ?_, ?_⟩
      · rw [List.filter_append, ← h1]
        simp [List.filter, hfl2]
      · exact add_to_groups_content it pre hel acc.2 h2 h3 (h4 it.text)
      · exact add_to_groups_covers it pre acc.2 h4
    · have hel : backtrack_eligible it = false := by
        simp [backtrack_eligible, haux]
      rw [show collect_step true acc it = acc by
        simp [collect_step, hfl, haux]]
      refine ⟨?_, h2, ?_, ?_⟩
      · rw [List.filter_append, ← h1]
        simp [List.filter, hfl2]
      · intro g hg
        rw [List.filter_append, ← h3 g hg]
        simp [List.filter, hel]
      · intro tx hne
        rw [List.filter_append] at hne
        apply h4
        intro h0
        apply hne
        rw [h0]
        simp [List.filter, hel]

/-- The collection loop of `delete_by_link_density` computes exactly the
flagged elements and the insertion-ordered grouping of the eligible
elements. -/
theorem collect_fold_spec (items : List LinkDensityItem) :
    ∀ (pre : List LinkDensityItem)
      (acc : List LinkDensityItem × List (String × List LinkDensityItem)),
    acc.1 = pre.filter (fun j => j.flagged) →
    ((acc.2.map Prod.fst).Nodup) →
    (∀ g ∈ acc.2, g.2 = pre.filter (fun j => backtrack_eligible j && (j.text == g.1))) →
    (∀ tx, pre.filter (fun j => backtrack_eligible j && (j.text == tx)) ≠ [] →
      ∃ g ∈ acc.2, g.1 = tx) →
    ((items.foldl (collect_step true) acc).1 =
        (pre ++ items).filter (fun j => j.flagged) ∧
      (∀ g ∈ (items.foldl (collect_step true) acc).2,
        g.2 = (pre ++ items).filter (fun j => backtrack_eligible j && (j.text == g.1))) ∧
      (∀ tx, (pre ++ items).filter (fun j => backtrack_eligible j && (j.text == tx)) ≠ [] →
        ∃ g ∈ (items.foldl (collect_step true) acc).2, g.1 = tx)) := by
  induction items with
  | nil =>
    intro pre acc h1 h2 h3 h4
    simp only [List.foldl_nil, List.append_nil]
    exact ⟨h1, h3, h4⟩
  | cons it rest ih =>
    intro pre acc h1 h2 h3 h4
    rw [List.foldl_cons, show pre ++ it :: rest = (pre ++ [it]) ++ rest by simp]
    obtain ⟨s1, s2, s3, s4⟩ := collect_step_spec it pre acc h1 h2 h3 h4
    exact ih (pre ++ [it]) (collect_step true acc it) s1 s2 s3 s4

/-- C8: in `delete_by_link_density` with backtracking, an element of the
target tag is deleted exactly when its link-density test was positive, or
the test was negative with a non-empty auxiliary list and the group of
elements sharing its trimmed text has at least 3 members and a text length
strictly between 0 and 100; the collected deletions carry no duplicates;
and every deleted element was among the visited elements. -/
theorem claim_C8_link_density (items : List LinkDensityItem) :
    (∀ it ∈ items,
      it ∈ delete_by_link_density_deletions true items ↔
        (it.flagged = true ∨
          (it.flagged = false ∧ it.aux_count > 0 ∧
            0 < it.text.length ∧ it.text.length < 100 ∧
            3 ≤ (items.filter
              (fun j => backtrack_eligible j && (j.text == it.text))).length))) ∧
    (delete_by_link_density_deletions true items).Nodup ∧
    (∀ it ∈ delete_by_link_density_deletions true items, it ∈ items) := by
  obtain ⟨hflag, hgroups, hcover⟩ :=
    collect_fold_spec items [] ([], []) rfl (by simp) (by simp)
      (by intro tx hne; exact absurd rfl hne)
  simp only [List.nil_append] at hflag hgroups hcover
  have hdef : delete_by_link_density_deletions true items =
      uniquify_go [] ((items.foldl (collect_step true) ([], [])).1 ++
        (((items.foldl (collect_step true) ([], [])).2.filter
          (fun g => decide (0 < g.1.length) && decide (g.1.length < 100) &&
            decide (3 ≤ g.2.length))).flatMap (fun g => g.2))) := rfl
  refine ⟨?_, ?_, ?_⟩
  · intro it hit
    rw [hdef, mem_uniquify_go]
    simp only [List.not_mem_nil, not_false_eq_true, and_true]
    rw [List.mem_append]
    constructor
    · rintro (h | h)
      · rw [hflag] at h
        exact Or.inl (List.mem_filter.mp h).2
      · rcases List.mem_flatMap.mp h with ⟨g, hgmem, hxg⟩
        have hgf := List.mem_filter.mp hgmem
        have hcond := hgf.2
        have hgv := hgroups g hgf.1
        rw [hgv] at hxg
        have hxf := List.mem_filter.mp hxg
        have hand := hxf.2
        rw [Bool.and_eq_true] at hand
        have hel : backtrack_eligible it = true := hand.1
        have htext : it.text = g.1 := beq_iff_eq.mp hand.2
        have hflags : it.flagged = false ∧ it.aux_count > 0 := by
          simpa [backtrack_eligible] using hel
        simp only [Bool.and_eq_true, decide_eq_true_eq] at hcond
        right
        refine ⟨hflags.1, hflags.2, ?_, ?_, ?_⟩
        · rw [htext]
          exact hcond.1.1
        · rw [htext]
          exact hcond.1.2
        · rw [htext, ← hgv]
          exact hcond.2
    · rintro (hfl | ⟨hfl, haux, hlen1, hlen2, hsize⟩)
      · left
        rw [hflag]
        exact List.mem_filter.mpr ⟨hit, hfl⟩
      · right
        have hel : backtrack_eligible it = true := by
          simp [backtrack_eligible, hfl, haux]
        have hitf : it ∈ items.filter
            (fun j => backtrack_eligible j && (j.text == it.text)) := by
          refine List.mem_filter.mpr ⟨hit, ?_⟩
          simp [hel]
        obtain ⟨g, hg, hk⟩ := hcover it.text (List.ne_nil_of_mem hitf)
        have hgv := hgroups g hg
        refine List.mem_flatMap.mpr ⟨g, ?_, ?_⟩
        · refine List.mem_filter.mpr ⟨hg, ?_⟩
          simp only [Bool.and_eq_true, decide_eq_true_eq]
          rw [hk]
          refine ⟨⟨hlen1, hlen2⟩, ?_⟩
          rw [hgv, hk]
          exact hsize
        · rw [hgv, hk]
          exact hitf
  · rw [hdef]
    exact nodup_uniquify_go _ []
  · intro it hit2
    rw [hdef, mem_uniquify_go] at hit2
    rcases List.mem_append.mp hit2.1 with h | h
    · rw [hflag] at h
      exact (List.mem_filter.mp h).1
    · rcases List.mem_flatMap.mp h with ⟨g, hgmem, hxg⟩
      have hgv := hgroups g (List.mem_filter.mp hgmem).1
      rw [hgv] at hxg
      exact (List.mem_filter.mp hxg).1

/-- C8 witness: the deletion rule evaluated for a concrete grouped element
of the concrete item list. -/
theorem claim_C8_link_density_witness :
    (⟨1, false, 2, "x"⟩ : LinkDensityItem) ∈ c8_items ∧
      ((⟨1, false, 2, "x"⟩ : LinkDensityItem) ∈
          delete_by_link_density_deletions true c8_items ↔
        ((⟨1, false, 2, "x"⟩ : LinkDensityItem).flagged = true ∨
          ((⟨1, false, 2, "x"⟩ : LinkDensityItem).flagged = false ∧
            (⟨1, false, 2, "x"⟩ : LinkDensityItem).aux_count > 0 ∧
            0 < (⟨1, false, 2, "x"⟩ : LinkDensityItem).text.length ∧
            (⟨1, false, 2, "x"⟩ : LinkDensityItem).text.length < 100 ∧
            3 ≤ (c8_items.filter (fun j => backtrack_eligible j &&
              (j.text == (⟨1, false, 2, "x"⟩ : LinkDensityItem).text))).length))) :=
  ⟨by decide, (claim_C8_link_density c8_items).1 _ (by decide)⟩
